import Mathlib

/-!
Verification of the graph-layout preprocessing core (`src/layout/layoutUtils.ts`).

The TypeScript source is shallowly embedded here:

* `Node` / `Link` mirror the node and edge records (`{id, label}` and
  `{source, target}`; optional coordinate payload is irrelevant to every
  function modelled here and is omitted, as the data model notes that label
  and coordinates are payload irrelevant to traversal).
* A JS object used as a string-keyed map is modelled as an association list
  in key-insertion order (`EdgeMap`); a JS `Set` is modelled as a duplicate
  free list in insertion order (`addSet` is `Set.add`).
* `arr.sort()` followed by `arr[0]` is modelled by `sortMin`
  (`mergeSort` then `head?`); indexing an empty array yields JS `undefined`,
  modelled as `none`.
* The recursive `dfs` takes explicit fuel and returns `none` on fuel
  exhaustion; termination is then a theorem (the fuel actually supplied is
  proved sufficient), not an assumption.
-/

namespace GraphViz

/-- Node record of the source (`MyGraphNodeType`): identity is `id`,
`label` is payload. -/
structure Node where
  id : String
  label : String
deriving DecidableEq, Repr

/-- Edge record of the source (`MyGraphLinkType`). -/
structure Link where
  source : String
  target : String
deriving DecidableEq, Repr

/-- A JS object mapping node ids to neighbor lists, in key-insertion order. -/
abbrev EdgeMap := List (String × List String)

/-- JS `Set.add`: append the element unless it is already present. -/
def addSet (l : List String) (x : String) : List String :=
  if x ∈ l then l else l ++ [x]

/-- Reading `edgeMap[k]`: first matching key (JS objects cannot repeat keys). -/
def emLookup : EdgeMap → String → Option (List String)
  | [], _ => none
  | (k, cs) :: rest, a => if k = a then some cs else emLookup rest a

/-- The body of `convertToEdgeMap`'s per-edge work: create the key if absent
(appended in insertion order, as JS objects do) and `Set.add` the neighbor. -/
def addNeighbor (m : EdgeMap) (src trg : String) : EdgeMap :=
  match m with
  | [] => [(src, [trg])]
  | (k, cs) :: rest =>
    if k = src then (k, addSet cs trg) :: rest
    else (k, cs) :: addNeighbor rest src trg

/-- `convertToEdgeMap(links, directed)` from the source: fold over the edge
list, inserting `target` into the neighbor set of `source`, and when
undirected also `source` into the neighbor set of `target`.  (The source's
final `Array.from` pass over an undirected map converts `Set` values to
arrays; sets are already lists here, so that pass is the identity.) -/
def convertToEdgeMap (links : List Link) (directed : Bool) : EdgeMap :=
  links.foldl
    (fun m e =>
      if directed then addNeighbor m e.source e.target
      else addNeighbor (addNeighbor m e.source e.target) e.target e.source)
    []

/-- Membership of `b` in the neighbor list stored under key `a`. -/
def memNeighbor (em : EdgeMap) (a b : String) : Prop :=
  ∃ cs, emLookup em a = some cs ∧ b ∈ cs

theorem mem_addSet {l : List String} {x y : String} :
    x ∈ addSet l y ↔ x ∈ l ∨ x = y := by
  unfold addSet
  split
  · rename_i h
    constructor
    · exact Or.inl
    · rintro (hx | rfl)
      · exact hx
      · exact h
  · simp

theorem emLookup_addNeighbor (m : EdgeMap) (s t a : String) :
    emLookup (addNeighbor m s t) a =
      if a = s then some (addSet ((emLookup m s).getD []) t)
      else emLookup m a := by
  induction m with
  | nil =>
    by_cases h : a = s
    · subst h
      simp [addNeighbor, emLookup, addSet]
    · have h2 : ¬ s = a := fun hs => h hs.symm
      simp [addNeighbor, emLookup, h, h2]
  | cons p rest ih =>
    obtain ⟨k, cs⟩ := p
    by_cases hk : k = s
    · subst hk
      by_cases ha : a = k
      · subst ha
        simp [addNeighbor, emLookup]
      · have h2 : ¬ k = a := fun hs => ha hs.symm
        simp [addNeighbor, emLookup, ha, h2]
    · simp only [addNeighbor, if_neg hk, emLookup]
      by_cases ha : k = a
      · have h2 : ¬ a = s := fun h => hk (ha ▸ h)
        rw [if_pos ha, if_neg h2, if_pos ha]
      · rw [if_neg ha, ih, if_neg ha]

theorem memNeighbor_addNeighbor (m : EdgeMap) (s t a b : String) :
    memNeighbor (addNeighbor m s t) a b ↔
      memNeighbor m a b ∨ (a = s ∧ b = t) := by
  unfold memNeighbor
  rw [emLookup_addNeighbor]
  by_cases ha : a = s
  · subst ha
    simp only [if_pos rfl]
    cases hm : emLookup m a with
    | none => simp [mem_addSet, hm]
    | some cs => simp [mem_addSet, hm]
  · simp [ha]

theorem convertToEdgeMap_false_eq (links : List Link) :
    convertToEdgeMap links false =
      links.foldl
        (fun m e => addNeighbor (addNeighbor m e.source e.target) e.target e.source)
        [] := by
  simp [convertToEdgeMap]

theorem memNeighbor_convert_undirected (links : List Link) (a b : String) :
    memNeighbor (convertToEdgeMap links false) a b ↔
      ∃ e ∈ links, (e.source = a ∧ e.target = b) ∨ (e.source = b ∧ e.target = a) := by
  suffices h : ∀ (l : List Link) (m : EdgeMap),
      memNeighbor
        (l.foldl (fun m e =>
          addNeighbor (addNeighbor m e.source e.target) e.target e.source) m) a b ↔
        memNeighbor m a b ∨
          ∃ e ∈ l, (e.source = a ∧ e.target = b) ∨ (e.source = b ∧ e.target = a) by
    have h2 := h links []
    rw [convertToEdgeMap_false_eq, h2]
    have hnone : ¬ memNeighbor [] a b := by
      rintro ⟨cs, hcs, -⟩
      simp [emLookup] at hcs
    simp [hnone]
  intro l
  induction l with
  | nil => simp
  | cons e rest ih =>
    intro m
    simp only [List.foldl_cons]
    rw [ih]
    rw [memNeighbor_addNeighbor, memNeighbor_addNeighbor]
    constructor
    · rintro (((hm | ⟨rfl, rfl⟩) | ⟨rfl, rfl⟩) | ⟨e', he', hcase⟩)
      · exact Or.inl hm
      · exact Or.inr ⟨e, by simp, Or.inl ⟨rfl, rfl⟩⟩
      · exact Or.inr ⟨e, by simp, Or.inr ⟨rfl, rfl⟩⟩
      · exact Or.inr ⟨e', by simp [he'], hcase⟩
    · rintro (hm | ⟨e', he', hcase⟩)
      · exact Or.inl (Or.inl (Or.inl hm))
      · rcases List.mem_cons.mp he' with rfl | he'
        · rcases hcase with ⟨ha, hb⟩ | ⟨hb, ha⟩
          · exact Or.inl (Or.inl (Or.inr ⟨ha.symm, hb.symm⟩))
          · exact Or.inl (Or.inr ⟨ha.symm, hb.symm⟩)
        · exact Or.inr ⟨e', he', hcase⟩

/-! Lexicographic string order.  JS `arr.sort()` with no comparator sorts
strings lexicographically by character code; we model the comparison
explicitly on the character lists underlying `String`, so that it is
executable by kernel reduction. -/

/-- Lexicographic comparison of character lists by character code. -/
def lexLE : List Char → List Char → Bool
  | [], _ => true
  | _ :: _, [] => false
  | c :: cs, d :: ds =>
    if c.toNat < d.toNat then true
    else if d.toNat < c.toNat then false
    else lexLE cs ds

/-- Lexicographic order on strings, as JS string comparison. -/
def strRel (a b : String) : Prop := lexLE a.data b.data = true

instance : DecidableRel strRel := fun a b =>
  inferInstanceAs (Decidable (lexLE a.data b.data = true))

theorem lexLE_total (a b : List Char) : lexLE a b = true ∨ lexLE b a = true := by
  induction a generalizing b with
  | nil => exact Or.inl rfl
  | cons c cs ih =>
    cases b with
    | nil => exact Or.inr rfl
    | cons d ds =>
      by_cases h1 : c.toNat < d.toNat
      · exact Or.inl (by simp [lexLE, h1])
      · by_cases h2 : d.toNat < c.toNat
        · exact Or.inr (by simp [lexLE, h2])
        · rcases ih ds with h | h
          · exact Or.inl (by simp [lexLE, h1, h2, h])
          · exact Or.inr (by simp [lexLE, h1, h2, h])

theorem lexLE_trans {a b c : List Char} (hab : lexLE a b = true)
    (hbc : lexLE b c = true) : lexLE a c = true := by
  induction a generalizing b c with
  | nil => rfl
  | cons x xs ih =>
    cases b with
    | nil => simp [lexLE] at hab
    | cons y ys =>
      cases c with
      | nil => simp [lexLE] at hbc
      | cons z zs =>
        simp only [lexLE] at hab hbc ⊢
        by_cases h1 : x.toNat < y.toNat
        · by_cases h2 : y.toNat < z.toNat
          · simp [Nat.lt_trans h1 h2]
          · by_cases h3 : z.toNat < y.toNat
            · simp [h2, h3] at hbc
            · have hyz : y.toNat = z.toNat := Nat.le_antisymm
                (Nat.le_of_not_lt h3) (Nat.le_of_not_lt h2)
              simp [hyz ▸ h1]
        · by_cases h4 : y.toNat < x.toNat
          · simp [h1, h4] at hab
          · have hxy : x.toNat = y.toNat := Nat.le_antisymm
              (Nat.le_of_not_lt h4) (Nat.le_of_not_lt h1)
            simp only [if_neg h1, if_neg h4] at hab
            by_cases h2 : y.toNat < z.toNat
            · simp [hxy ▸ h2]
            · by_cases h3 : z.toNat < y.toNat
              · simp [h2, h3] at hbc
              · simp only [if_neg h2, if_neg h3] at hbc
                have hxz1 : ¬ x.toNat < z.toNat := hxy ▸ h2
                have hxz2 : ¬ z.toNat < x.toNat := hxy ▸ h3
                simp [hxz1, hxz2, ih hab hbc]

theorem lexLE_antisymm {a b : List Char} (hab : lexLE a b = true)
    (hba : lexLE b a = true) : a = b := by
  induction a generalizing b with
  | nil =>
    cases b with
    | nil => rfl
    | cons d ds => simp [lexLE] at hba
  | cons c cs ih =>
    cases b with
    | nil => simp [lexLE] at hab
    | cons d ds =>
      simp only [lexLE] at hab hba
      by_cases h1 : c.toNat < d.toNat
      · have h2 : ¬ d.toNat < c.toNat := Nat.lt_asymm h1
        simp [h1, h2] at hba
      · by_cases h2 : d.toNat < c.toNat
        · simp [h1, h2] at hab
        · have hcd : c.toNat = d.toNat := Nat.le_antisymm
            (Nat.le_of_not_lt h2) (Nat.le_of_not_lt h1)
          have hc : c = d := by
            apply Char.eq_of_val_eq
            exact congrArg UInt32.mk (BitVec.eq_of_toNat_eq hcd)
          simp only [if_neg h1, if_neg h2] at hab hba
          rw [hc, ih hab hba]

instance : IsTotal String strRel := ⟨fun a b => lexLE_total a.data b.data⟩

instance : IsTrans String strRel := ⟨fun _ _ _ => lexLE_trans⟩

theorem strRel_antisymm {a b : String} (hab : strRel a b) (hba : strRel b a) :
    a = b := by
  cases a with
  | mk da =>
    cases b with
    | mk db =>
      have h := lexLE_antisymm hab hba
      simp only at h
      rw [h]

/-- JS `arr.sort()` followed by `arr[0]`: the least element of the list
under lexicographic string order (`none` — JS `undefined` — on an empty
array).  Any correct sort yields the same head, so the sort is modelled by
insertion sort. -/
def sortMin (l : List String) : Option String :=
  (List.insertionSort strRel l).head?

theorem sortMin_eq_some_iff {l : List String} {m : String} :
    sortMin l = some m ↔ m ∈ l ∧ ∀ x ∈ l, strRel m x := by
  unfold sortMin
  cases hs : List.insertionSort strRel l with
  | nil =>
    have hl : l = [] := by
      have hp := List.perm_insertionSort strRel l
      rw [hs] at hp
      exact (List.Perm.nil_eq hp).symm
    subst hl
    simp
  | cons h t =>
    have hp := List.perm_insertionSort strRel l
    rw [hs] at hp
    have hsorted := List.sorted_insertionSort strRel l
    rw [hs] at hsorted
    have hmemiff : ∀ x, x ∈ l ↔ x ∈ h :: t := fun x => (hp.mem_iff).symm
    have hleast : ∀ x ∈ l, strRel h x := by
      intro x hx
      rcases List.mem_cons.mp ((hmemiff x).mp hx) with rfl | hx'
      · rcases lexLE_total x.data x.data with hh | hh
        · exact hh
        · exact hh
      · exact (List.sorted_cons.mp hsorted).1 x hx'
    constructor
    · intro hsome
      have hm : h = m := by
        simpa using hsome
      subst hm
      exact ⟨(hmemiff h).mpr (by simp), hleast⟩
    · rintro ⟨hm, hmin⟩
      have h1 : strRel m h := hmin h ((hmemiff h).mpr (by simp))
      have h2 : strRel h m := hleast m hm
      simp [strRel_antisymm h2 h1]

theorem sortMin_eq_none_iff {l : List String} : sortMin l = none ↔ l = [] := by
  unfold sortMin
  rw [List.head?_eq_none_iff]
  constructor
  · intro h
    have hp := List.perm_insertionSort strRel l
    rw [h] at hp
    exact (List.Perm.nil_eq hp).symm
  · intro h
    subst h
    rfl

theorem sortMin_congr {l1 l2 : List String} (h : ∀ x, x ∈ l1 ↔ x ∈ l2) :
    sortMin l1 = sortMin l2 := by
  cases h1 : sortMin l1 with
  | none =>
    rw [sortMin_eq_none_iff] at h1
    subst h1
    have h2 : l2 = [] := by
      rw [List.eq_nil_iff_forall_not_mem]
      intro x hx
      exact (by simpa using (h x).mpr hx)
    rw [h2]
    rfl
  | some m =>
    rw [sortMin_eq_some_iff] at h1
    symm
    rw [sortMin_eq_some_iff]
    exact ⟨(h m).mp h1.1, fun x hx => h1.2 x ((h x).mpr hx)⟩

/-- Claim C5: for every edge list built with `directed = false`, the adjacency
map is symmetric: the neighbor list of `a` contains `b` iff the neighbor list
of `b` contains `a`. -/
theorem convertToEdgeMap_undirected_symm (links : List Link) (a b : String) :
    memNeighbor (convertToEdgeMap links false) a b ↔
      memNeighbor (convertToEdgeMap links false) b a := by
  rw [memNeighbor_convert_undirected, memNeighbor_convert_undirected]
  constructor <;>
    · rintro ⟨e, he, hcase | hcase⟩
      · exact ⟨e, he, Or.inr hcase⟩
      · exact ⟨e, he, Or.inl hcase⟩

/-! The start-node resolver `deriveStartNode`. -/

/-- The list of node ids in node-list order (both the `currentNodeList`
array of the source, which pushes every id, and the id image of `nodes`). -/
def nodeIds (nodes : List Node) : List String := nodes.map (fun n => n.id)

/-- The `currentNodes` set of `deriveStartNode`: ids of `nodes` as an
insertion-order set. -/
def currentNodesOf (nodes : List Node) : List String :=
  nodes.foldl (fun acc n => addSet acc n.id) []

/-- The `nodesWithIn` and `nodesWithOut` sets of `deriveStartNode`, built in
one pass over the adjacency-map keys: a key present in `currentNodes` is
added to `nodesWithOut` (second component) and each of its neighbors to
`nodesWithIn` (first component). -/
def inOutOf (nodes : List Node) (em : EdgeMap) : List String × List String :=
  em.foldl
    (fun acc p =>
      if p.1 ∈ currentNodesOf nodes then
        (p.2.foldl addSet acc.1, addSet acc.2 p.1)
      else acc)
    ([], [])

/-- The `candidates` set of `deriveStartNode`: node ids with no indegree and
with outdegree. -/
def candidatesOf (nodes : List Node) (em : EdgeMap) : List String :=
  nodes.foldl
    (fun acc n =>
      if n.id ∉ (inOutOf nodes em).1 ∧ n.id ∈ (inOutOf nodes em).2 then
        addSet acc n.id
      else acc)
    []

/-- `deriveStartNode(nodes, edgeMap)` from the source: return the smallest
candidate if any; else, if `nodesWithOut` is empty, the smallest id of
`currentNodeList`; else the smallest member of `nodesWithOut`.
`arr.sort()` followed by `arr[0]` is `sortMin`; on an empty node list the
final indexing yields JS `undefined`, modelled as `none`. -/
def deriveStartNode (nodes : List Node) (em : EdgeMap) : Option String :=
  if candidatesOf nodes em ≠ [] then sortMin (candidatesOf nodes em)
  else if (inOutOf nodes em).2 = [] then sortMin (nodeIds nodes)
  else sortMin ((inOutOf nodes em).2)

/-! Spec-side restatement of the resolver (section 4.2 of the spec), used to
settle claims C1 and C8. -/

/-- Whether `a` is a key of the adjacency map. -/
def isKeyB (em : EdgeMap) (a : String) : Bool :=
  em.any (fun p => p.1 == a)

/-- Whether `a` is a key of the adjacency map with at least one neighbor
(the reading used verbatim in claim C1). -/
def isKeyPosB (em : EdgeMap) (a : String) : Bool :=
  em.any (fun p => p.1 == a && !p.2.isEmpty)

/-- Whether `b` appears as a neighbor of some adjacency key that is a node id. -/
def hasIndegreeB (nodes : List Node) (em : EdgeMap) (b : String) : Bool :=
  em.any (fun p => decide (p.1 ∈ nodeIds nodes) && p.2.contains b)

/-- Whether `b` is recorded as a neighbor of key `a`. -/
def nbB (em : EdgeMap) (a b : String) : Bool :=
  em.any (fun p => p.1 == a && p.2.contains b)

/-- Spec wording (amended): node ids that are adjacency keys, regardless of
neighbor count. -/
def specWithOutdegree (nodes : List Node) (em : EdgeMap) : List String :=
  (nodeIds nodes).filter (fun a => isKeyB em a)

/-- Spec wording (amended): node ids with outdegree and no indegree. -/
def specCandidates (nodes : List Node) (em : EdgeMap) : List String :=
  (specWithOutdegree nodes em).filter (fun a => !hasIndegreeB nodes em a)

/-- Modelled from the spec, amended as claim C1's counterexample forces:
smallest candidate if one exists; else smallest node id when no node id is
an adjacency key; else smallest node id that is an adjacency key.  The only
amendment against the claim's literal text is that a key with an empty
neighbor list still counts as `withOutdegree`. -/
def deriveStartNodeSpec (nodes : List Node) (em : EdgeMap) : Option String :=
  if specCandidates nodes em ≠ [] then sortMin (specCandidates nodes em)
  else if specWithOutdegree nodes em = [] then sortMin (nodeIds nodes)
  else sortMin (specWithOutdegree nodes em)

/-- Claim C1's literal wording: as `deriveStartNodeSpec`, but a node id
counts as having outdegree only when its key has at least one neighbor. -/
def claimWithOutdegree (nodes : List Node) (em : EdgeMap) : List String :=
  (nodeIds nodes).filter (fun a => isKeyPosB em a)

/-- Claim C1's literal wording for the candidate set. -/
def claimCandidates (nodes : List Node) (em : EdgeMap) : List String :=
  (claimWithOutdegree nodes em).filter (fun a => !hasIndegreeB nodes em a)

/-- Claim C1 as stated, as a function: the start node it predicts. -/
def deriveStartNodeClaim (nodes : List Node) (em : EdgeMap) : Option String :=
  if claimCandidates nodes em ≠ [] then sortMin (claimCandidates nodes em)
  else if claimWithOutdegree nodes em = [] then sortMin (nodeIds nodes)
  else sortMin (claimWithOutdegree nodes em)

theorem mem_foldl_addSet (cs : List String) (init : List String) (x : String) :
    x ∈ cs.foldl addSet init ↔ x ∈ init ∨ x ∈ cs := by
  induction cs generalizing init with
  | nil => simp
  | cons c cs ih =>
    simp only [List.foldl_cons]
    rw [ih, mem_addSet]
    simp only [List.mem_cons]
    tauto

theorem mem_currentNodesOf (nodes : List Node) (x : String) :
    x ∈ currentNodesOf nodes ↔ x ∈ nodeIds nodes := by
  suffices h : ∀ init, x ∈ nodes.foldl (fun acc n => addSet acc n.id) init ↔
      x ∈ init ∨ x ∈ nodeIds nodes by
    have h2 := h []
    simpa [currentNodesOf] using h2
  induction nodes with
  | nil => simp [nodeIds]
  | cons n ns ih =>
    intro init
    simp only [List.foldl_cons]
    rw [ih, mem_addSet]
    simp only [nodeIds, List.map_cons, List.mem_cons]
    tauto

theorem inOutOf_eq_pair (nodes : List Node) (em : EdgeMap) :
    inOutOf nodes em =
      (em.foldl
        (fun ins p => if p.1 ∈ currentNodesOf nodes then p.2.foldl addSet ins else ins)
        [],
       em.foldl
        (fun outs p => if p.1 ∈ currentNodesOf nodes then addSet outs p.1 else outs)
        []) := by
  unfold inOutOf
  suffices h : ∀ (ms : EdgeMap) (a b : List String),
      ms.foldl
        (fun acc p =>
          if p.1 ∈ currentNodesOf nodes then (p.2.foldl addSet acc.1, addSet acc.2 p.1)
          else acc)
        (a, b) =
      (ms.foldl
        (fun ins p => if p.1 ∈ currentNodesOf nodes then p.2.foldl addSet ins else ins)
        a,
       ms.foldl
        (fun outs p => if p.1 ∈ currentNodesOf nodes then addSet outs p.1 else outs)
        b) from h em [] []
  intro ms
  induction ms with
  | nil => intro a b; rfl
  | cons p rest ih =>
    intro a b
    simp only [List.foldl_cons]
    by_cases h : p.1 ∈ currentNodesOf nodes
    · simp only [if_pos h]
      exact ih _ _
    · simp only [if_neg h]
      exact ih _ _

theorem mem_inOutOf_fst (nodes : List Node) (em : EdgeMap) (x : String) :
    x ∈ (inOutOf nodes em).1 ↔ ∃ p ∈ em, p.1 ∈ nodeIds nodes ∧ x ∈ p.2 := by
  rw [inOutOf_eq_pair]
  suffices h : ∀ (ms : EdgeMap) (a : List String),
      x ∈ ms.foldl
        (fun ins p => if p.1 ∈ currentNodesOf nodes then p.2.foldl addSet ins else ins)
        a ↔
      x ∈ a ∨ ∃ p ∈ ms, p.1 ∈ nodeIds nodes ∧ x ∈ p.2 by
    have h2 := h em []
    simpa using h2
  intro ms
  induction ms with
  | nil => simp
  | cons p rest ih =>
    intro a
    simp only [List.foldl_cons]
    by_cases h : p.1 ∈ currentNodesOf nodes
    · rw [if_pos h, ih, mem_foldl_addSet]
      have hid : p.1 ∈ nodeIds nodes := (mem_currentNodesOf nodes p.1).mp h
      simp only [List.mem_cons]
      constructor
      · rintro ((hx | hx) | ⟨q, hq, hq1, hq2⟩)
        · exact Or.inl hx
        · exact Or.inr ⟨p, Or.inl rfl, hid, hx⟩
        · exact Or.inr ⟨q, Or.inr hq, hq1, hq2⟩
      · rintro (hx | ⟨q, (rfl | hq), hq1, hq2⟩)
        · exact Or.inl (Or.inl hx)
        · exact Or.inl (Or.inr hq2)
        · exact Or.inr ⟨q, hq, hq1, hq2⟩
    · rw [if_neg h, ih]
      have hid : p.1 ∉ nodeIds nodes := fun hc => h ((mem_currentNodesOf nodes p.1).mpr hc)
      simp only [List.mem_cons]
      constructor
      · rintro (hx | ⟨q, hq, hq1, hq2⟩)
        · exact Or.inl hx
        · exact Or.inr ⟨q, Or.inr hq, hq1, hq2⟩
      · rintro (hx | ⟨q, (rfl | hq), hq1, hq2⟩)
        · exact Or.inl hx
        · exact absurd hq1 hid
        · exact Or.inr ⟨q, hq, hq1, hq2⟩

theorem mem_inOutOf_snd (nodes : List Node) (em : EdgeMap) (x : String) :
    x ∈ (inOutOf nodes em).2 ↔ x ∈ nodeIds nodes ∧ ∃ p ∈ em, p.1 = x := by
  rw [inOutOf_eq_pair]
  suffices h : ∀ (ms : EdgeMap) (b : List String),
      x ∈ ms.foldl
        (fun outs p => if p.1 ∈ currentNodesOf nodes then addSet outs p.1 else outs)
        b ↔
      x ∈ b ∨ (x ∈ nodeIds nodes ∧ ∃ p ∈ ms, p.1 = x) by
    have h2 := h em []
    simpa using h2
  intro ms
  induction ms with
  | nil => simp
  | cons p rest ih =>
    intro b
    simp only [List.foldl_cons]
    by_cases h : p.1 ∈ currentNodesOf nodes
    · rw [if_pos h, ih, mem_addSet]
      have hid : p.1 ∈ nodeIds nodes := (mem_currentNodesOf nodes p.1).mp h
      simp only [List.mem_cons]
      constructor
      · rintro ((hx | rfl) | ⟨hx, q, hq, hq1⟩)
        · exact Or.inl hx
        · exact Or.inr ⟨hid, p, Or.inl rfl, rfl⟩
        · exact Or.inr ⟨hx, q, Or.inr hq, hq1⟩
      · rintro (hx | ⟨hx, q, (rfl | hq), hq1⟩)
        · exact Or.inl (Or.inl hx)
        · exact Or.inl (Or.inr hq1.symm)
        · exact Or.inr ⟨hx, q, hq, hq1⟩
    · rw [if_neg h, ih]
      have hid : p.1 ∉ nodeIds nodes := fun hc => h ((mem_currentNodesOf nodes p.1).mpr hc)
      simp only [List.mem_cons]
      constructor
      · rintro (hx | ⟨hx, q, hq, hq1⟩)
        · exact Or.inl hx
        · exact Or.inr ⟨hx, q, Or.inr hq, hq1⟩
      · rintro (hx | ⟨hx, q, (rfl | hq), hq1⟩)
        · exact Or.inl hx
        · exact absurd (hq1 ▸ hx) hid
        · exact Or.inr ⟨hx, q, hq, hq1⟩

theorem mem_candidatesOf (nodes : List Node) (em : EdgeMap) (x : String) :
    x ∈ candidatesOf nodes em ↔
      x ∈ nodeIds nodes ∧ x ∉ (inOutOf nodes em).1 ∧ x ∈ (inOutOf nodes em).2 := by
  unfold candidatesOf
  suffices h : ∀ (ns : List Node) (init : List String),
      x ∈ ns.foldl
        (fun acc n =>
          if n.id ∉ (inOutOf nodes em).1 ∧ n.id ∈ (inOutOf nodes em).2 then
            addSet acc n.id
          else acc)
        init ↔
      x ∈ init ∨
        (x ∈ nodeIds ns ∧ x ∉ (inOutOf nodes em).1 ∧ x ∈ (inOutOf nodes em).2) by
    have h2 := h nodes []
    simpa using h2
  intro ns
  induction ns with
  | nil => simp [nodeIds]
  | cons n rest ih =>
    intro init
    simp only [List.foldl_cons]
    by_cases h : n.id ∉ (inOutOf nodes em).1 ∧ n.id ∈ (inOutOf nodes em).2
    · rw [if_pos h, ih, mem_addSet]
      simp only [nodeIds, List.map_cons, List.mem_cons]
      constructor
      · rintro ((hx | rfl) | ⟨hx1, hx2, hx3⟩)
        · exact Or.inl hx
        · exact Or.inr ⟨Or.inl rfl, h.1, h.2⟩
        · exact Or.inr ⟨Or.inr hx1, hx2, hx3⟩
      · rintro (hx | ⟨rfl | hx1, hx2, hx3⟩)
        · exact Or.inl (Or.inl hx)
        · exact Or.inl (Or.inr rfl)
        · exact Or.inr ⟨hx1, hx2, hx3⟩
    · rw [if_neg h, ih]
      simp only [nodeIds, List.map_cons, List.mem_cons]
      constructor
      · rintro (hx | ⟨hx1, hx2, hx3⟩)
        · exact Or.inl hx
        · exact Or.inr ⟨Or.inr hx1, hx2, hx3⟩
      · rintro (hx | ⟨rfl | hx1, hx2, hx3⟩)
        · exact Or.inl hx
        · exact absurd ⟨hx2, hx3⟩ h
        · exact Or.inr ⟨hx1, hx2, hx3⟩

theorem isKeyB_iff (em : EdgeMap) (a : String) :
    isKeyB em a = true ↔ ∃ p ∈ em, p.1 = a := by
  simp [isKeyB, List.any_eq_true]

theorem hasIndegreeB_iff (nodes : List Node) (em : EdgeMap) (b : String) :
    hasIndegreeB nodes em b = true ↔ ∃ p ∈ em, p.1 ∈ nodeIds nodes ∧ b ∈ p.2 := by
  simp [hasIndegreeB, List.any_eq_true]

theorem nbB_iff (em : EdgeMap) (a b : String) :
    nbB em a b = true ↔ ∃ p ∈ em, p.1 = a ∧ b ∈ p.2 := by
  simp [nbB, List.any_eq_true]

theorem mem_specWithOutdegree (nodes : List Node) (em : EdgeMap) (x : String) :
    x ∈ specWithOutdegree nodes em ↔ x ∈ nodeIds nodes ∧ ∃ p ∈ em, p.1 = x := by
  simp [specWithOutdegree, List.mem_filter, isKeyB_iff]

theorem mem_specCandidates (nodes : List Node) (em : EdgeMap) (x : String) :
    x ∈ specCandidates nodes em ↔
      (x ∈ nodeIds nodes ∧ ∃ p ∈ em, p.1 = x) ∧
        ¬ ∃ p ∈ em, p.1 ∈ nodeIds nodes ∧ x ∈ p.2 := by
  simp only [specCandidates, List.mem_filter, mem_specWithOutdegree,
    Bool.not_eq_eq_eq_not, Bool.not_true]
  rw [← Bool.not_eq_true, iff_iff_eq]
  congr 1
  rw [eq_iff_iff]
  rw [not_iff_not]
  exact hasIndegreeB_iff nodes em x

theorem candidates_same_members (nodes : List Node) (em : EdgeMap) (x : String) :
    x ∈ candidatesOf nodes em ↔ x ∈ specCandidates nodes em := by
  rw [mem_candidatesOf, mem_specCandidates, mem_inOutOf_fst, mem_inOutOf_snd]
  tauto

theorem out_same_members (nodes : List Node) (em : EdgeMap) (x : String) :
    x ∈ (inOutOf nodes em).2 ↔ x ∈ specWithOutdegree nodes em := by
  rw [mem_inOutOf_snd, mem_specWithOutdegree]

theorem same_members_nil_iff {l1 l2 : List String}
    (h : ∀ x, x ∈ l1 ↔ x ∈ l2) : l1 = [] ↔ l2 = [] := by
  rw [List.eq_nil_iff_forall_not_mem, List.eq_nil_iff_forall_not_mem]
  constructor
  · intro h1 x hx
    exact h1 x ((h x).mpr hx)
  · intro h2 x hx
    exact h2 x ((h x).mp hx)

theorem deriveStartNode_eq_spec (nodes : List Node) (em : EdgeMap) :
    deriveStartNode nodes em = deriveStartNodeSpec nodes em := by
  unfold deriveStartNode deriveStartNodeSpec
  have hcand := candidates_same_members nodes em
  have hout := out_same_members nodes em
  have hcnil := same_members_nil_iff hcand
  have honil := same_members_nil_iff hout
  by_cases h1 : specCandidates nodes em = []
  · have hc0 : candidatesOf nodes em = [] := hcnil.mpr h1
    rw [if_neg (not_not_intro hc0), if_neg (not_not_intro h1)]
    by_cases h2 : specWithOutdegree nodes em = []
    · rw [if_pos (honil.mpr h2), if_pos h2]
    · rw [if_neg (fun hc => h2 (honil.mp hc)), if_neg h2]
      exact sortMin_congr hout
  · rw [if_pos (fun hc => h1 (hcnil.mp hc)), if_pos h1]
    exact sortMin_congr hcand

/-- Claim C1 (amended): `deriveStartNode` returns exactly what the spec's
three-stage rule computes, with `withOutdegree` read as "node ids that are
adjacency keys" (a key with an empty neighbor list included). -/
theorem deriveStartNode_spec_correct (nodes : List Node) (em : EdgeMap) :
    deriveStartNode nodes em = deriveStartNodeSpec nodes em :=
  deriveStartNode_eq_spec nodes em

/-- Claim C1, counterexample to the literal statement: with node ids `a`, `b`
and an adjacency map whose only entry is the key `b` with an empty neighbor
list, the code treats `b` as having outdegree (key presence is all it
checks) and returns `b`, while the claim's rule (outdegree requires at least
one neighbor) falls through to the smallest node id, `a`. -/
theorem deriveStartNode_claim_counterexample :
    deriveStartNode [⟨"a", "a"⟩, ⟨"b", "b"⟩] [("b", [])] = some "b" ∧
      deriveStartNodeClaim [⟨"a", "a"⟩, ⟨"b", "b"⟩] [("b", [])] = some "a" := by
  constructor
  · rfl
  · rfl

/-- Claim C7: on an empty node list `deriveStartNode` is still defined and
returns JS `undefined` (modelled `none`), the "no node" sentinel: the
candidate set and `nodesWithOut` are empty, so the function sorts the empty
id list and indexes its first element. -/
theorem deriveStartNode_empty_nodes (em : EdgeMap) :
    deriveStartNode [] em = none := by
  unfold deriveStartNode
  have h1 : candidatesOf [] em = [] := rfl
  have h2 : (inOutOf [] em).2 = [] := by
    rw [List.eq_nil_iff_forall_not_mem]
    intro x hx
    rw [mem_inOutOf_snd] at hx
    simp [nodeIds] at hx
  rw [if_neg (by simp [h1]), if_pos h2]
  rfl

/-- Claim C8: `deriveStartNode` is input-order independent: permuting the
node list and re-ordering the adjacency map's entries or neighbor lists (so
that key presence and the neighbor relation are unchanged) cannot change the
result. -/
theorem deriveStartNode_order_independent
    (nodes1 nodes2 : List Node) (em1 em2 : EdgeMap)
    (hnodes : List.Perm nodes1 nodes2)
    (hkeys : ∀ a, isKeyB em1 a = isKeyB em2 a)
    (hnbrs : ∀ a b, nbB em1 a b = nbB em2 a b) :
    deriveStartNode nodes1 em1 = deriveStartNode nodes2 em2 := by
  rw [deriveStartNode_eq_spec, deriveStartNode_eq_spec]
  have hids : ∀ x, x ∈ nodeIds nodes1 ↔ x ∈ nodeIds nodes2 :=
    fun x => (hnodes.map (fun n => n.id)).mem_iff
  have hkey : ∀ x, (∃ p ∈ em1, p.1 = x) ↔ ∃ p ∈ em2, p.1 = x := by
    intro x
    rw [← isKeyB_iff, ← isKeyB_iff, hkeys x]
  have hnb : ∀ a b, (∃ p ∈ em1, p.1 = a ∧ b ∈ p.2) ↔ ∃ p ∈ em2, p.1 = a ∧ b ∈ p.2 := by
    intro a b
    rw [← nbB_iff, ← nbB_iff, hnbrs a b]
  have hin : ∀ (b : String),
      (∃ p ∈ em1, p.1 ∈ nodeIds nodes1 ∧ b ∈ p.2) ↔
        ∃ p ∈ em2, p.1 ∈ nodeIds nodes2 ∧ b ∈ p.2 := by
    intro b
    have hsplit : ∀ (em : EdgeMap) (nodes : List Node),
        (∃ p ∈ em, p.1 ∈ nodeIds nodes ∧ b ∈ p.2) ↔
          ∃ a, a ∈ nodeIds nodes ∧ ∃ p ∈ em, p.1 = a ∧ b ∈ p.2 := by
      intro em nodes
      constructor
      · rintro ⟨p, hp, hp1, hp2⟩
        exact ⟨p.1, hp1, p, hp, rfl, hp2⟩
      · rintro ⟨a, ha, p, hp, rfl, hp2⟩
        exact ⟨p, hp, ha, hp2⟩
    rw [hsplit em1 nodes1, hsplit em2 nodes2]
    constructor
    · rintro ⟨a, ha, hrest⟩
      exact ⟨a, (hids a).mp ha, (hnb a b).mp hrest⟩
    · rintro ⟨a, ha, hrest⟩
      exact ⟨a, (hids a).mpr ha, (hnb a b).mpr hrest⟩
  have hwo : ∀ x, x ∈ specWithOutdegree nodes1 em1 ↔ x ∈ specWithOutdegree nodes2 em2 := by
    intro x
    rw [mem_specWithOutdegree, mem_specWithOutdegree]
    constructor
    · rintro ⟨h1, h2⟩
      exact ⟨(hids x).mp h1, (hkey x).mp h2⟩
    · rintro ⟨h1, h2⟩
      exact ⟨(hids x).mpr h1, (hkey x).mpr h2⟩
  have hcand : ∀ x, x ∈ specCandidates nodes1 em1 ↔ x ∈ specCandidates nodes2 em2 := by
    intro x
    rw [mem_specCandidates, mem_specCandidates]
    constructor
    · rintro ⟨⟨h1, h2⟩, h3⟩
      exact ⟨⟨(hids x).mp h1, (hkey x).mp h2⟩, fun hc => h3 ((hin x).mpr hc)⟩
    · rintro ⟨⟨h1, h2⟩, h3⟩
      exact ⟨⟨(hids x).mpr h1, (hkey x).mpr h2⟩, fun hc => h3 ((hin x).mp hc)⟩
  unfold deriveStartNodeSpec
  have hcnil := same_members_nil_iff hcand
  have hwnil := same_members_nil_iff hwo
  by_cases h1 : specCandidates nodes1 em1 = []
  · have hc2 : specCandidates nodes2 em2 = [] := hcnil.mp h1
    rw [if_neg (not_not_intro h1), if_neg (not_not_intro hc2)]
    by_cases h2 : specWithOutdegree nodes1 em1 = []
    · rw [if_pos h2, if_pos (hwnil.mp h2)]
      exact sortMin_congr hids
    · rw [if_neg h2, if_neg (fun hc => h2 (hwnil.mpr hc))]
      exact sortMin_congr hwo
  · rw [if_pos h1, if_pos (fun hc => h1 (hcnil.mpr hc))]
    exact sortMin_congr hcand

/-- Witness for claim C8: a permuted node list together with an adjacency map
whose only neighbor list is re-ordered leave the result unchanged. -/
theorem deriveStartNode_order_independent_witness :
    deriveStartNode [⟨"b", "b"⟩, ⟨"a", "a"⟩] [("a", ["b", "c"])] =
      deriveStartNode [⟨"a", "a"⟩, ⟨"b", "b"⟩] [("a", ["c", "b"])] := by
  apply deriveStartNode_order_independent
  · decide
  · intro a
    rfl
  · intro a b
    apply Bool.eq_iff_iff.mpr
    rw [nbB_iff, nbB_iff]
    simp only [List.mem_singleton]
    constructor
    · rintro ⟨p, hp, hp1, hp2⟩
      subst hp
      refine ⟨("a", ["c", "b"]), rfl, hp1, ?_⟩
      simp at hp2 ⊢
      tauto
    · rintro ⟨p, hp, hp1, hp2⟩
      subst hp
      refine ⟨("a", ["b", "c"]), rfl, hp1, ?_⟩
      simp at hp2 ⊢
      tauto

/-! The edge deduplicator `removeRepeatedEdges`. -/

/-- The composite forward key recorded by `removeRepeatedEdges` for an edge. -/
def keyOf (e : Link) : String := e.source ++ "-linkTo-" ++ e.target

/-- The reverse key checked by `removeRepeatedEdges` for an edge. -/
def backKeyOf (e : Link) : String := e.target ++ "-linkTo-" ++ e.source

/-- The loop of `removeRepeatedEdges`: `seen` holds the forward keys of the
edges emitted so far (a JS `Set`, used only through membership, so modelled
as a list); an edge whose reverse key is in `seen` is skipped, any other
edge is emitted and its forward key recorded. -/
def rreGo (seen : List String) : List Link → List Link
  | [] => []
  | e :: es =>
    if backKeyOf e ∈ seen then rreGo seen es
    else e :: rreGo (keyOf e :: seen) es

/-- `removeRepeatedEdges(links)` from the source. -/
def removeRepeatedEdges (links : List Link) : List Link := rreGo [] links

/-- The `seen` set left behind by the loop of `removeRepeatedEdges`. -/
def rreSeen (seen : List String) : List Link → List String
  | [] => seen
  | e :: es =>
    if backKeyOf e ∈ seen then rreSeen seen es
    else rreSeen (keyOf e :: seen) es

/-- Spec wording of claim C3, amended: the edge at position `i` survives iff
its reverse key differs from the forward key of every edge emitted for the
prefix of the first `i` edges. -/
def dedupeSpecAt (links : List Link) : List Link :=
  (List.range links.length).filterMap (fun i =>
    match links[i]? with
    | none => none
    | some e =>
      if backKeyOf e ∈ (removeRepeatedEdges (links.take i)).map keyOf then none
      else some e)

theorem rreGo_spec (l : List Link) (S : List String) :
    rreGo S l = (List.range l.length).filterMap (fun i =>
      match l[i]? with
      | none => none
      | some e =>
        if backKeyOf e ∈ S ∨ backKeyOf e ∈ (rreGo S (l.take i)).map keyOf then none
        else some e) := by
  induction l generalizing S with
  | nil => rfl
  | cons e es ih =>
    rw [List.length_cons, List.range_succ_eq_map, List.filterMap_cons, List.filterMap_map]
    by_cases hb : backKeyOf e ∈ S
    · have h0 :
          (match (e :: es)[0]? with
            | none => none
            | some e' =>
              if backKeyOf e' ∈ S ∨ backKeyOf e' ∈ (rreGo S ((e :: es).take 0)).map keyOf
              then none else some e') = (none : Option Link) := by
        simp [hb]
      rw [h0]
      simp only [rreGo, if_pos hb]
      rw [ih S]
      apply List.filterMap_congr
      intro i hi
      simp only [Function.comp]
      have htake : (e :: es).take (i + 1) = e :: es.take i := rfl
      rw [List.getElem?_cons_succ, htake]
      cases es[i]? with
      | none => rfl
      | some e' =>
        simp only [rreGo, if_pos hb]
    · have h0 :
          (match (e :: es)[0]? with
            | none => none
            | some e' =>
              if backKeyOf e' ∈ S ∨ backKeyOf e' ∈ (rreGo S ((e :: es).take 0)).map keyOf
              then none else some e') = some e := by
        simp [hb, rreGo]
      rw [h0]
      simp only [rreGo, if_neg hb]
      rw [ih (keyOf e :: S)]
      congr 1
      apply List.filterMap_congr
      intro i hi
      simp only [Function.comp]
      have htake : (e :: es).take (i + 1) = e :: es.take i := rfl
      rw [List.getElem?_cons_succ, htake]
      cases es[i]? with
      | none => rfl
      | some e' =>
        simp only [rreGo, if_neg hb, List.map_cons]
        apply if_congr _ rfl rfl
        simp only [List.mem_cons]
        tauto

/-- Claim C3 (amended): `removeRepeatedEdges` drops an edge iff its reverse
key string `target-linkTo-source` equals the recorded forward key string of
an edge emitted for the preceding prefix — and keeps it otherwise, even when
it repeats an earlier edge in the same direction, except where the reverse
key coincides with a recorded key (as for an exact repeat of a self-loop). -/
theorem removeRepeatedEdges_drops_iff_mirror_key (links : List Link) :
    removeRepeatedEdges links = dedupeSpecAt links := by
  unfold removeRepeatedEdges dedupeSpecAt
  rw [rreGo_spec]
  apply List.filterMap_congr
  intro i hi
  cases links[i]? with
  | none => rfl
  | some e =>
    apply if_congr _ rfl rfl
    unfold removeRepeatedEdges
    simp

/-- Claim C3, counterexample to the literal statement: an exact
same-direction repeat of a self-loop is dropped (its reverse key equals the
recorded forward key), while the claim asserts an exact same-direction
repeat is never dropped. -/
theorem removeRepeatedEdges_claim_counterexample :
    removeRepeatedEdges [⟨"a", "a"⟩, ⟨"a", "a"⟩] = [⟨"a", "a"⟩] ∧
      removeRepeatedEdges [⟨"a", "a"⟩, ⟨"a", "a"⟩] ≠ [⟨"a", "a"⟩, ⟨"a", "a"⟩] := by
  constructor
  · rfl
  · decide

/-- Soundness of the emitted-key invariant: each emitted edge's reverse key
differs from every previously recorded forward key. -/
def ChainOk : List String → List Link → Prop
  | _, [] => True
  | S, e :: es => backKeyOf e ∉ S ∧ ChainOk (keyOf e :: S) es

theorem rreGo_chainOk (l : List Link) (S : List String) : ChainOk S (rreGo S l) := by
  induction l generalizing S with
  | nil => trivial
  | cons e es ih =>
    by_cases hb : backKeyOf e ∈ S
    · simpa [rreGo, hb] using ih S
    · simp only [rreGo, if_neg hb]
      exact ⟨hb, ih (keyOf e :: S)⟩

theorem rreGo_of_chainOk (l : List Link) (S : List String) (h : ChainOk S l) :
    rreGo S l = l := by
  induction l generalizing S with
  | nil => rfl
  | cons e es ih =>
    obtain ⟨hb, hrest⟩ := h
    simp only [rreGo, if_neg hb]
    rw [ih _ hrest]

/-- Claim C9: `removeRepeatedEdges` is idempotent. -/
theorem removeRepeatedEdges_idempotent (links : List Link) :
    removeRepeatedEdges (removeRepeatedEdges links) = removeRepeatedEdges links :=
  rreGo_of_chainOk _ [] (rreGo_chainOk links [])

theorem chainOk_later {S : List String} {l : List Link} (h : ChainOk S l) :
    ∀ e ∈ l, backKeyOf e ∉ S := by
  induction l generalizing S with
  | nil => intro e he; cases he
  | cons e es ih =>
    obtain ⟨hb, hrest⟩ := h
    intro e' he'
    rcases List.mem_cons.mp he' with rfl | he'
    · exact hb
    · intro hc
      exact (ih hrest e' he') (List.mem_cons_of_mem _ hc)

theorem chainOk_pairwise {S : List String} {l : List Link} (h : ChainOk S l) :
    List.Pairwise (fun e1 e2 => keyOf e1 ≠ backKeyOf e2) l := by
  induction l generalizing S with
  | nil => exact List.Pairwise.nil
  | cons e es ih =>
    obtain ⟨hb, hrest⟩ := h
    refine List.Pairwise.cons ?_ (ih hrest)
    intro e' he' hc
    exact (chainOk_later hrest e' he') (hc ▸ List.mem_cons_self _ _)

theorem pairwise_mem_cases {R : Link → Link → Prop} :
    ∀ {l : List Link}, List.Pairwise R l →
      ∀ {x y : Link}, x ∈ l → y ∈ l → x ≠ y → R x y ∨ R y x := by
  intro l hp
  induction hp with
  | nil => intro x y hx; cases hx
  | cons hhead _ ih =>
    intro x y hx hy hxy
    rcases List.mem_cons.mp hx with rfl | hx'
    · rcases List.mem_cons.mp hy with rfl | hy'
      · exact absurd rfl hxy
      · exact Or.inl (hhead y hy')
    · rcases List.mem_cons.mp hy with rfl | hy'
      · exact Or.inr (hhead x hx')
      · exact ih hx' hy' hxy

/-- Keys built from edge ids identify the edge pair uniquely: whenever the
reverse key of one edge of the list equals the forward key of another, the
two edges are a genuine mirrored pair.  Collisions that violate this can
come from ids that contain the separator `-linkTo-`, but also from ids that
merely straddle it: the ids `x-linkTo` and `linkTo-y` contain no
`-linkTo-`, yet the reverse key of `(linkTo-y, x)` and the forward key of
`(x-linkTo, y)` are both `x-linkTo-linkTo-y`. -/
def KeysFaithful (links : List Link) : Prop :=
  ∀ e1 ∈ links, ∀ e2 ∈ links,
    backKeyOf e1 = keyOf e2 → e2.source = e1.target ∧ e2.target = e1.source

instance (links : List Link) : Decidable (KeysFaithful links) := by
  unfold KeysFaithful
  infer_instance

theorem rreGo_subset {S : List String} {l : List Link} :
    ∀ e ∈ rreGo S l, e ∈ l := by
  induction l generalizing S with
  | nil => intro e he; cases he
  | cons x xs ih =>
    intro e he
    by_cases hb : backKeyOf x ∈ S
    · rw [rreGo, if_pos hb] at he
      exact List.mem_cons_of_mem _ (ih e he)
    · rw [rreGo, if_neg hb] at he
      rcases List.mem_cons.mp he with rfl | he'
      · exact List.mem_cons_self _ _
      · exact List.mem_cons_of_mem _ (ih e he')

theorem rreGo_append (S : List String) (l1 l2 : List Link) :
    rreGo S (l1 ++ l2) = rreGo S l1 ++ rreGo (rreSeen S l1) l2 := by
  induction l1 generalizing S with
  | nil => rfl
  | cons e es ih =>
    by_cases hb : backKeyOf e ∈ S
    · simp only [List.cons_append, rreGo, rreSeen, if_pos hb]
      exact ih S
    · simp only [List.cons_append, rreGo, rreSeen, if_neg hb, List.cons_append]
      exact congrArg (e :: ·) (ih (keyOf e :: S))

theorem mem_rreSeen (l : List Link) (S : List String) (x : String) :
    x ∈ rreSeen S l ↔ x ∈ S ∨ x ∈ (rreGo S l).map keyOf := by
  induction l generalizing S with
  | nil => simp [rreSeen, rreGo]
  | cons e es ih =>
    by_cases hb : backKeyOf e ∈ S
    · simp only [rreSeen, rreGo, if_pos hb]
      exact ih S
    · simp only [rreSeen, rreGo, if_neg hb, List.map_cons, List.mem_cons]
      rw [ih (keyOf e :: S)]
      simp only [List.mem_cons]
      tauto

/-- Claim C10 (amended): the output of `removeRepeatedEdges` is mirror-free —
it never contains both `(a, b)` and `(b, a)` for distinct `a`, `b` — and,
provided the composite keys of the input's edges collide only on genuine
mirrors (`KeysFaithful`: no edge's reverse key string equals the forward
key string of anything but an actual mirrored edge), the direction of the
first occurrence among `(a, b)`/`(b, a)` in the input is emitted and its
mirror is not. -/
theorem removeRepeatedEdges_mirror_free (links : List Link) (a b : String)
    (hab : a ≠ b) :
    (⟨a, b⟩ ∈ removeRepeatedEdges links → ⟨b, a⟩ ∉ removeRepeatedEdges links) ∧
      (KeysFaithful links → ∀ l1 l2, links = l1 ++ ⟨a, b⟩ :: l2 → ⟨b, a⟩ ∉ l1 →
        ⟨a, b⟩ ∈ removeRepeatedEdges links ∧ ⟨b, a⟩ ∉ removeRepeatedEdges links) := by
  have hmf : ⟨a, b⟩ ∈ removeRepeatedEdges links → ⟨b, a⟩ ∉ removeRepeatedEdges links := by
    intro hmem hmem'
    have hp := chainOk_pairwise (rreGo_chainOk links [])
    have hne : (⟨a, b⟩ : Link) ≠ ⟨b, a⟩ := by
      intro hc
      exact hab (congrArg Link.source hc)
    rcases pairwise_mem_cases hp hmem hmem' hne with hR | hR
    · exact hR rfl
    · exact hR rfl
  refine ⟨hmf, ?_⟩
  intro hf l1 l2 hsplit hba
  suffices hin : (⟨a, b⟩ : Link) ∈ removeRepeatedEdges links from ⟨hin, hmf hin⟩
  subst hsplit
  unfold removeRepeatedEdges
  rw [rreGo_append]
  by_cases hb2 : backKeyOf ⟨a, b⟩ ∈ rreSeen [] l1
  · exfalso
    rw [mem_rreSeen] at hb2
    rcases hb2 with hc | hc
    · cases hc
    · rcases List.mem_map.mp hc with ⟨e2, he2, hkey⟩
      have he2l1 : e2 ∈ l1 := rreGo_subset e2 he2
      have hpair := hf ⟨a, b⟩ (by simp) e2
        (List.mem_append_left _ he2l1) hkey.symm
      have he2eq : e2 = ⟨b, a⟩ := by
        cases e2
        simp only at hpair
        simp [hpair.1, hpair.2]
      rw [he2eq] at he2l1
      exact hba he2l1
  · apply List.mem_append_right
    rw [rreGo, if_neg hb2]
    exact List.mem_cons_self _ _

/-- Witness for claim C10's amended theorem at a concrete mirrored pair. -/
theorem removeRepeatedEdges_mirror_free_witness :
    ("a" : String) ≠ "b" ∧ KeysFaithful [⟨"a", "b"⟩, ⟨"b", "a"⟩] ∧
      ⟨"a", "b"⟩ ∈ removeRepeatedEdges [⟨"a", "b"⟩, ⟨"b", "a"⟩] ∧
        ⟨"b", "a"⟩ ∉ removeRepeatedEdges [⟨"a", "b"⟩, ⟨"b", "a"⟩] := by
  refine ⟨by decide, by decide, ?_⟩
  exact (removeRepeatedEdges_mirror_free [⟨"a", "b"⟩, ⟨"b", "a"⟩] "a" "b"
    (by decide)).2 (by decide) [] [⟨"b", "a"⟩] rfl (by decide)

/-- Claim C10, counterexample to the literal statement: with ids containing
the separator `-linkTo-`, the reverse key of `(x-linkTo-y, z)` collides with
the forward key of the earlier, unrelated edge `(z-linkTo-x, y)`; the
direction `(x-linkTo-y, z)` occurs first among the mirror pair yet is
dropped, and its mirror `(z, x-linkTo-y)` is emitted. -/
theorem removeRepeatedEdges_first_direction_counterexample :
    removeRepeatedEdges
        [⟨"z-linkTo-x", "y"⟩, ⟨"x-linkTo-y", "z"⟩, ⟨"z", "x-linkTo-y"⟩] =
      [⟨"z-linkTo-x", "y"⟩, ⟨"z", "x-linkTo-y"⟩] ∧
      ⟨"x-linkTo-y", "z"⟩ ∉ removeRepeatedEdges
        [⟨"z-linkTo-x", "y"⟩, ⟨"x-linkTo-y", "z"⟩, ⟨"z", "x-linkTo-y"⟩] ∧
      ⟨"z", "x-linkTo-y"⟩ ∈ removeRepeatedEdges
        [⟨"z-linkTo-x", "y"⟩, ⟨"x-linkTo-y", "z"⟩, ⟨"z", "x-linkTo-y"⟩] := by
  refine ⟨rfl, ?_, ?_⟩
  · decide
  · decide

/-! The component decomposer `getDisconnectedComponents` and its recursive
`dfs`.  The JS recursion has no fuel; the embedding gives `dfs` explicit
fuel and returns `none` on exhaustion, and the fuel actually supplied
(`fuelOf`) is proved sufficient (claim C6), so exhaustion never occurs. -/

/-- Every id occurring in the adjacency map, keys and neighbors alike:
the traversal can only ever visit these ids. -/
def emIds (em : EdgeMap) : List String :=
  em.foldr (fun p acc => p.1 :: (p.2 ++ acc)) []

/-- Fuel supplied to the embedded `dfs`; proved sufficient. -/
def fuelOf (em : EdgeMap) : Nat := (emIds em).length + 1

/-- `dfs(nodeId, edgeMap, seen, collected)` from the source: return if the
id was seen; otherwise mark it seen and collected (JS `Set.add`, an append
for a fresh element) and recurse into the neighbor list left to right,
threading `seen`/`collected` through.  A missing key returns immediately. -/
def dfsVisit : Nat → String → EdgeMap → List String → List String →
    Option (List String × List String)
  | 0, _, _, _, _ => none
  | fuel + 1, nodeId, em, seen, collected =>
    if nodeId ∈ seen then some (seen, collected)
    else
      match emLookup em nodeId with
      | none => some (seen ++ [nodeId], collected ++ [nodeId])
      | some children =>
        children.foldlM (fun acc c => dfsVisit fuel c em acc.1 acc.2)
          (seen ++ [nodeId], collected ++ [nodeId])

/-- The JS truthiness test `startNode && collected.has(startNode)`:
`undefined` and the empty string are both falsy. -/
def startHit : Option String → List String → Bool
  | none, _ => false
  | some s, coll => decide (s ≠ "") && coll.contains s

/-- Store used for `idToNodes[node.id] = node`: a later node with the same
id overwrites the earlier entry. -/
def storePut : List (String × Node) → String → Node → List (String × Node)
  | [], k, v => [(k, v)]
  | (k', v') :: rest, k, v =>
    if k' = k then (k', v) :: rest else (k', v') :: storePut rest k v

/-- The `idToNodes` object of `getDisconnectedComponents`. -/
def nodeStore (nodes : List Node) : List (String × Node) :=
  nodes.foldl (fun m n => storePut m n.id n) []

/-- Reading `idToNodes[c]`: `none` is JS `undefined` for a dangling id. -/
def storeGet : List (String × Node) → String → Option Node
  | [], _ => none
  | (k', v') :: rest, k => if k' = k then some v' else storeGet rest k

/-- Lookup of the node object for an id, as `idToNodes[c]` does. -/
def nodeFor (nodes : List Node) (id : String) : Option Node :=
  storeGet (nodeStore nodes) id

/-- The `connectedNodeIds` set: every edge endpoint in first-occurrence
order (source before target, edge list order). -/
def linkIds (links : List Link) : List String :=
  links.foldl (fun acc e => addSet (addSet acc e.source) e.target) []

/-- The main loop of `getDisconnectedComponents` over `connectedNodeIds`:
each unseen id seeds a dfs; the collected ids are mapped through
`idToNodes` (JS `undefined`, here `none`, for a dangling id) and the
component is unshifted to the front when it contains the truthy start node,
appended otherwise. -/
def componentsLoop (em : EdgeMap) (f : String → Option Node) (start : Option String) :
    List String → List String → List (List (Option Node)) →
      Option (List (List (Option Node)))
  | [], _, rtn => some rtn
  | nodeId :: rest, seen, rtn =>
    if nodeId ∈ seen then componentsLoop em f start rest seen rtn
    else
      match dfsVisit (fuelOf em) nodeId em seen [] with
      | none => none
      | some (seen', coll) =>
        if startHit start coll then
          componentsLoop em f start rest seen' (coll.map f :: rtn)
        else componentsLoop em f start rest seen' (rtn ++ [coll.map f])

/-- Twin of `componentsLoop` at the level of collected id lists (before the
`idToNodes` mapping); the reordering decision reads the same collected set. -/
def componentsIdLoop (em : EdgeMap) (start : Option String) :
    List String → List String → List (List String) → Option (List (List String))
  | [], _, rtn => some rtn
  | nodeId :: rest, seen, rtn =>
    if nodeId ∈ seen then componentsIdLoop em start rest seen rtn
    else
      match dfsVisit (fuelOf em) nodeId em seen [] with
      | none => none
      | some (seen', coll) =>
        if startHit start coll then componentsIdLoop em start rest seen' (coll :: rtn)
        else componentsIdLoop em start rest seen' (rtn ++ [coll])

/-- `getDisconnectedComponents(nodes, links, startNode)` from the source,
before discharging the fuel: the undirected adjacency map is rebuilt, the
loop runs over `connectedNodeIds`. -/
def getDisconnectedComponentsOpt (nodes : List Node) (links : List Link)
    (start : Option String) : Option (List (List (Option Node))) :=
  componentsLoop (convertToEdgeMap links false) (nodeFor nodes) start
    (linkIds links) [] []

/-- `getDisconnectedComponents`, total form (the fuel is proved sufficient,
so the default is never taken). -/
def getDisconnectedComponents (nodes : List Node) (links : List Link)
    (start : Option String) : List (List (Option Node)) :=
  (getDisconnectedComponentsOpt nodes links start).getD []

/-- Component decomposition at the level of collected id lists. -/
def decomposeIds (links : List Link) (start : Option String) :
    Option (List (List String)) :=
  componentsIdLoop (convertToEdgeMap links false) start (linkIds links) [] []

theorem componentsIdLoop_cons_seen {em : EdgeMap} {start : Option String}
    {id : String} {rest seen : List String} {rtn : List (List String)}
    (hseen : id ∈ seen) :
    componentsIdLoop em start (id :: rest) seen rtn =
      componentsIdLoop em start rest seen rtn := by
  rw [componentsIdLoop, if_pos hseen]

theorem componentsIdLoop_cons_none {em : EdgeMap} {start : Option String}
    {id : String} {rest seen : List String} {rtn : List (List String)}
    (hseen : id ∉ seen)
    (hdfs : dfsVisit (fuelOf em) id em seen [] = none) :
    componentsIdLoop em start (id :: rest) seen rtn = none := by
  rw [componentsIdLoop, if_neg hseen, hdfs]

theorem componentsIdLoop_cons_new {em : EdgeMap} {start : Option String}
    {id : String} {rest seen seen' coll : List String} {rtn : List (List String)}
    (hseen : id ∉ seen)
    (hdfs : dfsVisit (fuelOf em) id em seen [] = some (seen', coll)) :
    componentsIdLoop em start (id :: rest) seen rtn =
      if startHit start coll = true then
        componentsIdLoop em start rest seen' (coll :: rtn)
      else componentsIdLoop em start rest seen' (rtn ++ [coll]) := by
  rw [componentsIdLoop, if_neg hseen, hdfs]

theorem componentsLoop_cons_seen {em : EdgeMap} {f : String → Option Node}
    {start : Option String} {id : String} {rest seen : List String}
    {rtn : List (List (Option Node))} (hseen : id ∈ seen) :
    componentsLoop em f start (id :: rest) seen rtn =
      componentsLoop em f start rest seen rtn := by
  rw [componentsLoop, if_pos hseen]

theorem componentsLoop_cons_none {em : EdgeMap} {f : String → Option Node}
    {start : Option String} {id : String} {rest seen : List String}
    {rtn : List (List (Option Node))} (hseen : id ∉ seen)
    (hdfs : dfsVisit (fuelOf em) id em seen [] = none) :
    componentsLoop em f start (id :: rest) seen rtn = none := by
  rw [componentsLoop, if_neg hseen, hdfs]

theorem componentsLoop_cons_new {em : EdgeMap} {f : String → Option Node}
    {start : Option String} {id : String} {rest seen seen' coll : List String}
    {rtn : List (List (Option Node))} (hseen : id ∉ seen)
    (hdfs : dfsVisit (fuelOf em) id em seen [] = some (seen', coll)) :
    componentsLoop em f start (id :: rest) seen rtn =
      if startHit start coll = true then
        componentsLoop em f start rest seen' (coll.map f :: rtn)
      else componentsLoop em f start rest seen' (rtn ++ [coll.map f]) := by
  rw [componentsLoop, if_neg hseen, hdfs]

theorem dfsVisit_inv :
    ∀ (fuel : Nat) (em : EdgeMap) (id : String) (seen coll s' c' : List String),
      dfsVisit fuel id em seen coll = some (s', c') →
      (∀ x ∈ seen, x ∈ s') ∧ id ∈ s' ∧
        (∀ x, x ∈ c' ↔ x ∈ coll ∨ (x ∈ s' ∧ x ∉ seen)) := by
  intro fuel
  induction fuel with
  | zero =>
    intro em id seen coll s' c' h
    simp [dfsVisit] at h
  | succ fuel ih =>
    intro em id seen coll s' c' h
    have hfold : ∀ (cs : List String) (st r : List String × List String),
        cs.foldlM (fun acc c => dfsVisit fuel c em acc.1 acc.2) st = some r →
        (∀ x ∈ st.1, x ∈ r.1) ∧
          (∀ x, x ∈ r.2 ↔ x ∈ st.2 ∨ (x ∈ r.1 ∧ x ∉ st.1)) := by
      intro cs
      induction cs with
      | nil =>
        intro st r hr
        have hr2 : st = r := by simpa using hr
        subst hr2
        refine ⟨fun x hx => hx, fun x => ?_⟩
        constructor
        · exact fun hx => Or.inl hx
        · rintro (hx | ⟨h1, h2⟩)
          · exact hx
          · exact absurd h1 h2
      | cons c cs ihc =>
        intro st r hr
        rw [List.foldlM_cons] at hr
        cases h1 : dfsVisit fuel c em st.1 st.2 with
        | none =>
          rw [h1] at hr
          exact Option.noConfusion hr
        | some st1 =>
          rw [h1] at hr
          have hr2 : cs.foldlM (fun acc c => dfsVisit fuel c em acc.1 acc.2) st1 =
              some r := hr
          have hstep := ih em c st.1 st.2 st1.1 st1.2 (by rw [h1])
          have hrest := ihc st1 r hr2
          refine ⟨fun x hx => hrest.1 x (hstep.1 x hx), fun x => ?_⟩
          rw [hrest.2 x, hstep.2.2 x]
          constructor
          · rintro ((hx | ⟨h2, h3⟩) | ⟨h2, h3⟩)
            · exact Or.inl hx
            · exact Or.inr ⟨hrest.1 x h2, h3⟩
            · exact Or.inr ⟨h2, fun hc => h3 (hstep.1 x hc)⟩
          · rintro (hx | ⟨h2, h3⟩)
            · exact Or.inl (Or.inl hx)
            · by_cases hx1 : x ∈ st1.1
              · exact Or.inl (Or.inr ⟨hx1, h3⟩)
              · exact Or.inr ⟨h2, hx1⟩
    by_cases hseen : id ∈ seen
    · rw [dfsVisit, if_pos hseen] at h
      injection h with h
      injection h with h1 h2
      subst h1
      subst h2
      refine ⟨fun x hx => hx, hseen, fun x => ?_⟩
      constructor
      · exact fun hx => Or.inl hx
      · rintro (hx | ⟨hx1, hx2⟩)
        · exact hx
        · exact absurd hx1 hx2
    · rw [dfsVisit, if_neg hseen] at h
      cases hl : emLookup em id with
      | none =>
        rw [hl] at h
        injection h with h
        injection h with h1 h2
        subst h1
        subst h2
        refine ⟨fun x hx => List.mem_append_left _ hx,
          List.mem_append_right _ (by simp), fun x => ?_⟩
        simp only [List.mem_append, List.mem_singleton]
        constructor
        · rintro (hx | rfl)
          · exact Or.inl hx
          · exact Or.inr ⟨Or.inr (by simp), hseen⟩
        · rintro (hx | ⟨hx1 | hx2, hx3⟩)
          · exact Or.inl hx
          · exact absurd hx1 hx3
          · exact Or.inr (by simpa using hx2)
      | some children =>
        rw [hl] at h
        have hf := hfold children (seen ++ [id], coll ++ [id]) (s', c') h
        have hidmem : id ∈ s' := hf.1 id (List.mem_append_right _ (by simp))
        refine ⟨fun x hx => hf.1 x (List.mem_append_left _ hx), hidmem, fun x => ?_⟩
        rw [hf.2 x]
        simp only [List.mem_append, List.mem_singleton]
        constructor
        · rintro ((hx | rfl) | ⟨hx1, hx2⟩)
          · exact Or.inl hx
          · exact Or.inr ⟨hidmem, hseen⟩
          · exact Or.inr ⟨hx1, fun hc => hx2 (Or.inl hc)⟩
        · rintro (hx | ⟨hx1, hx2⟩)
          · exact Or.inl (Or.inl hx)
          · by_cases hxid : x = id
            · exact Or.inl (Or.inr hxid)
            · exact Or.inr ⟨hx1, by
                rintro (hc | hc)
                · exact hx2 hc
                · exact hxid hc⟩

/-- Count of map-relevant ids not yet seen; the measure that shrinks as the
traversal marks ids visited. -/
def countUnseen (U seen : List String) : Nat :=
  (U.filter (fun x => decide (x ∉ seen))).length

theorem filter_length_mono {p q : String → Bool}
    (h : ∀ x, p x = true → q x = true) :
    ∀ U : List String, (U.filter p).length ≤ (U.filter q).length := by
  intro U
  induction U with
  | nil => exact Nat.le_refl 0
  | cons u U ih =>
    by_cases hp : p u = true
    · rw [List.filter_cons_of_pos hp, List.filter_cons_of_pos (h u hp)]
      exact Nat.succ_le_succ ih
    · rw [List.filter_cons_of_neg (by simpa using hp)]
      cases hq : q u with
      | true =>
        rw [List.filter_cons_of_pos hq]
        exact Nat.le_trans ih (Nat.le_succ _)
      | false =>
        rw [List.filter_cons_of_neg (by simp [hq])]
        exact ih

theorem countUnseen_mono {s1 s2 : List String} (h : ∀ x ∈ s1, x ∈ s2)
    (U : List String) : countUnseen U s2 ≤ countUnseen U s1 := by
  apply filter_length_mono
  intro x hx
  simp only [decide_eq_true_eq] at hx ⊢
  exact fun hc => hx (h x hc)

theorem countUnseen_lt {id : String} {U seen : List String}
    (hU : id ∈ U) (hseen : id ∉ seen) :
    countUnseen U (seen ++ [id]) < countUnseen U seen := by
  induction U with
  | nil => cases hU
  | cons u U ih =>
    by_cases hu : u = id
    · subst hu
      have h1 : countUnseen (u :: U) (seen ++ [u]) = countUnseen U (seen ++ [u]) := by
        unfold countUnseen
        rw [List.filter_cons_of_neg]
        simp
      have h2 : countUnseen (u :: U) seen = countUnseen U seen + 1 := by
        unfold countUnseen
        rw [List.filter_cons_of_pos (by simpa using hseen)]
        simp
      have h3 : countUnseen U (seen ++ [u]) ≤ countUnseen U seen :=
        countUnseen_mono (fun x hx => List.mem_append_left _ hx) U
      omega
    · have hU2 : id ∈ U := by
        rcases List.mem_cons.mp hU with h | h
        · exact absurd h.symm hu
        · exact h
      by_cases hus : u ∈ seen
      · have h1 : countUnseen (u :: U) (seen ++ [id]) = countUnseen U (seen ++ [id]) := by
          unfold countUnseen
          rw [List.filter_cons_of_neg]
          simp [List.mem_append_left _ hus]
        have h2 : countUnseen (u :: U) seen = countUnseen U seen := by
          unfold countUnseen
          rw [List.filter_cons_of_neg]
          simp [hus]
        rw [h1, h2]
        exact ih hU2
      · have h1 : countUnseen (u :: U) (seen ++ [id]) =
            countUnseen U (seen ++ [id]) + 1 := by
          unfold countUnseen
          rw [List.filter_cons_of_pos (by
            simp only [decide_eq_true_eq, List.mem_append, List.mem_singleton]
            rintro (hc | hc)
            · exact hus hc
            · exact hu hc)]
          simp
        have h2 : countUnseen (u :: U) seen = countUnseen U seen + 1 := by
          unfold countUnseen
          rw [List.filter_cons_of_pos (by simpa using hus)]
          simp
        rw [h1, h2]
        exact Nat.succ_lt_succ (ih hU2)

theorem emLookup_some_mem {em : EdgeMap} {k : String} {cs : List String}
    (h : emLookup em k = some cs) : (k, cs) ∈ em := by
  induction em with
  | nil => cases h
  | cons p rest ih =>
    obtain ⟨k', cs'⟩ := p
    by_cases hk : k' = k
    · subst hk
      rw [emLookup, if_pos rfl] at h
      injection h with h
      subst h
      exact List.mem_cons_self _ _
    · rw [emLookup, if_neg hk] at h
      exact List.mem_cons_of_mem _ (ih h)

theorem emIds_cons (p : String × List String) (rest : EdgeMap) :
    emIds (p :: rest) = p.1 :: (p.2 ++ emIds rest) := rfl

theorem mem_emIds_key {em : EdgeMap} {k : String} {cs : List String}
    (h : (k, cs) ∈ em) : k ∈ emIds em := by
  induction em with
  | nil => cases h
  | cons p rest ih =>
    rw [emIds_cons]
    rcases List.mem_cons.mp h with rfl | h2
    · exact List.mem_cons_self _ _
    · exact List.mem_cons_of_mem _ (List.mem_append_right _ (ih h2))

theorem mem_emIds_nbr {em : EdgeMap} {k c : String} {cs : List String}
    (h : (k, cs) ∈ em) (hc : c ∈ cs) : c ∈ emIds em := by
  induction em with
  | nil => cases h
  | cons p rest ih =>
    rw [emIds_cons]
    rcases List.mem_cons.mp h with rfl | h2
    · exact List.mem_cons_of_mem _ (List.mem_append_left _ hc)
    · exact List.mem_cons_of_mem _ (List.mem_append_right _ (ih h2))

theorem dfsVisit_total (em : EdgeMap) :
    ∀ (fuel : Nat) (id : String) (seen coll : List String),
      id ∈ emIds em → countUnseen (emIds em) seen < fuel →
      (dfsVisit fuel id em seen coll).isSome = true := by
  intro fuel
  induction fuel with
  | zero =>
    intro id seen coll hid hcount
    exact absurd hcount (Nat.not_lt_zero _)
  | succ fuel ih =>
    intro id seen coll hid hcount
    by_cases hseen : id ∈ seen
    · rw [dfsVisit, if_pos hseen]
      rfl
    · rw [dfsVisit, if_neg hseen]
      have hlt : countUnseen (emIds em) (seen ++ [id]) < fuel := by
        have h1 := countUnseen_lt hid hseen
        omega
      cases hl : emLookup em id with
      | none => rfl
      | some children =>
        have hch : ∀ c ∈ children, c ∈ emIds em :=
          fun c hc => mem_emIds_nbr (emLookup_some_mem hl) hc
        have hfold : ∀ (cs : List String), (∀ c ∈ cs, c ∈ emIds em) →
            ∀ st : List String × List String,
              countUnseen (emIds em) st.1 < fuel →
              (cs.foldlM (fun acc c => dfsVisit fuel c em acc.1 acc.2) st).isSome
                = true := by
          intro cs
          induction cs with
          | nil => intro _ st _; rfl
          | cons c cs ihc =>
            intro hcs st hst
            rw [List.foldlM_cons]
            have hc1 := ih c st.1 st.2 (hcs c (List.mem_cons_self _ _)) hst
            cases h1 : dfsVisit fuel c em st.1 st.2 with
            | none => rw [h1] at hc1; cases hc1
            | some st1 =>
              have hmono := (dfsVisit_inv fuel em c st.1 st.2 st1.1 st1.2
                (by rw [h1])).1
              have hst1 : countUnseen (emIds em) st1.1 < fuel :=
                Nat.lt_of_le_of_lt (countUnseen_mono hmono _) hst
              show (List.foldlM (fun acc c => dfsVisit fuel c em acc.1 acc.2)
                st1 cs).isSome = true
              exact ihc (fun x hx => hcs x (List.mem_cons_of_mem _ hx)) st1 hst1
        exact hfold children hch (seen ++ [id], coll ++ [id]) hlt

theorem mem_linkIds (links : List Link) (x : String) :
    x ∈ linkIds links ↔ ∃ e ∈ links, e.source = x ∨ e.target = x := by
  suffices h : ∀ (l : List Link) (init : List String),
      x ∈ l.foldl (fun acc e => addSet (addSet acc e.source) e.target) init ↔
        x ∈ init ∨ ∃ e ∈ l, e.source = x ∨ e.target = x by
    have h2 := h links []
    simpa [linkIds] using h2
  intro l
  induction l with
  | nil => simp
  | cons e es ih =>
    intro init
    simp only [List.foldl_cons]
    rw [ih, mem_addSet, mem_addSet]
    constructor
    · rintro (((hx | rfl) | rfl) | ⟨e', he', hcase⟩)
      · exact Or.inl hx
      · exact Or.inr ⟨e, by simp, Or.inl rfl⟩
      · exact Or.inr ⟨e, by simp, Or.inr rfl⟩
      · exact Or.inr ⟨e', by simp [he'], hcase⟩
    · rintro (hx | ⟨e', he', hcase⟩)
      · exact Or.inl (Or.inl (Or.inl hx))
      · rcases List.mem_cons.mp he' with rfl | he2
        · rcases hcase with h1 | h1
          · exact Or.inl (Or.inl (Or.inr h1.symm))
          · exact Or.inl (Or.inr h1.symm)
        · exact Or.inr ⟨e', he2, hcase⟩

theorem isSome_emLookup_addNeighbor (m : EdgeMap) (s t x : String) :
    (emLookup (addNeighbor m s t) x).isSome = true ↔
      x = s ∨ (emLookup m x).isSome = true := by
  rw [emLookup_addNeighbor]
  by_cases hx : x = s
  · simp [hx]
  · simp [hx]

theorem linkIds_key (links : List Link) (x : String) (hx : x ∈ linkIds links) :
    (emLookup (convertToEdgeMap links false) x).isSome = true := by
  rw [mem_linkIds] at hx
  rw [convertToEdgeMap_false_eq]
  suffices h : ∀ (l : List Link) (m : EdgeMap),
      (emLookup
        (l.foldl (fun m e =>
          addNeighbor (addNeighbor m e.source e.target) e.target e.source) m)
        x).isSome = true ↔
      (emLookup m x).isSome = true ∨ ∃ e ∈ l, e.source = x ∨ e.target = x by
    rw [h links []]
    right
    exact hx
  intro l
  induction l with
  | nil => simp
  | cons e es ih =>
    intro m
    simp only [List.foldl_cons]
    rw [ih, isSome_emLookup_addNeighbor, isSome_emLookup_addNeighbor]
    constructor
    · rintro ((rfl | (rfl | hm)) | ⟨e', he', hcase⟩)
      · exact Or.inr ⟨e, by simp, Or.inr rfl⟩
      · exact Or.inr ⟨e, by simp, Or.inl rfl⟩
      · exact Or.inl hm
      · exact Or.inr ⟨e', by simp [he'], hcase⟩
    · rintro (hm | ⟨e', he', hcase⟩)
      · exact Or.inl (Or.inr (Or.inr hm))
      · rcases List.mem_cons.mp he' with rfl | he2
        · rcases hcase with h1 | h1
          · exact Or.inl (Or.inr (Or.inl h1.symm))
          · exact Or.inl (Or.inl h1.symm)
        · exact Or.inr ⟨e', he2, hcase⟩

theorem linkIds_mem_emIds (links : List Link) (x : String)
    (hx : x ∈ linkIds links) : x ∈ emIds (convertToEdgeMap links false) := by
  have h1 := linkIds_key links x hx
  cases hl : emLookup (convertToEdgeMap links false) x with
  | none => rw [hl] at h1; cases h1
  | some cs => exact mem_emIds_key (emLookup_some_mem hl)

theorem componentsIdLoop_total (em : EdgeMap) (start : Option String) :
    ∀ (ids : List String), (∀ id ∈ ids, id ∈ emIds em) →
      ∀ (seen : List String) (rtn : List (List String)),
        (componentsIdLoop em start ids seen rtn).isSome = true := by
  intro ids
  induction ids with
  | nil => intro _ seen rtn; rfl
  | cons id rest ih =>
    intro hids seen rtn
    by_cases hseen : id ∈ seen
    · rw [componentsIdLoop_cons_seen hseen]
      exact ih (fun x hx => hids x (List.mem_cons_of_mem _ hx)) seen rtn
    · have hcount : countUnseen (emIds em) seen < fuelOf em := by
        have h1 : countUnseen (emIds em) seen ≤ (emIds em).length := by
          unfold countUnseen
          exact List.length_filter_le _ _
        unfold fuelOf
        omega
      have htot := dfsVisit_total em (fuelOf em) id seen []
        (hids id (List.mem_cons_self _ _)) hcount
      cases hdfs : dfsVisit (fuelOf em) id em seen [] with
      | none => rw [hdfs] at htot; cases htot
      | some r =>
        obtain ⟨seen', coll⟩ := r
        rw [componentsIdLoop_cons_new hseen hdfs]
        by_cases hstart : startHit start coll = true
        · rw [if_pos hstart]
          exact ih (fun x hx => hids x (List.mem_cons_of_mem _ hx)) seen' _
        · rw [if_neg hstart]
          exact ih (fun x hx => hids x (List.mem_cons_of_mem _ hx)) seen' _

theorem componentsLoop_eq_map (em : EdgeMap) (f : String → Option Node)
    (start : Option String) :
    ∀ (ids seen : List String) (rtnIds : List (List String)),
      componentsLoop em f start ids seen (rtnIds.map (fun c => c.map f)) =
        (componentsIdLoop em start ids seen rtnIds).map
          (fun cs => cs.map (fun c => c.map f)) := by
  intro ids
  induction ids with
  | nil => intro seen rtnIds; rfl
  | cons id rest ih =>
    intro seen rtnIds
    by_cases hseen : id ∈ seen
    · rw [componentsLoop_cons_seen hseen, componentsIdLoop_cons_seen hseen]
      exact ih seen rtnIds
    · cases hdfs : dfsVisit (fuelOf em) id em seen [] with
      | none =>
        rw [componentsLoop_cons_none hseen hdfs, componentsIdLoop_cons_none hseen hdfs]
        rfl
      | some r =>
        obtain ⟨seen', coll⟩ := r
        rw [componentsLoop_cons_new hseen hdfs, componentsIdLoop_cons_new hseen hdfs]
        by_cases hstart : startHit start coll = true
        · rw [if_pos hstart, if_pos hstart]
          have h2 := ih seen' (coll :: rtnIds)
          simpa using h2
        · rw [if_neg hstart, if_neg hstart]
          have h2 := ih seen' (rtnIds ++ [coll])
          simpa using h2

theorem getDisconnectedComponentsOpt_eq_map (nodes : List Node)
    (links : List Link) (start : Option String) :
    getDisconnectedComponentsOpt nodes links start =
      (decomposeIds links start).map
        (fun cs => cs.map (fun c => c.map (nodeFor nodes))) := by
  unfold getDisconnectedComponentsOpt decomposeIds
  have h := componentsLoop_eq_map (convertToEdgeMap links false) (nodeFor nodes)
    start (linkIds links) [] []
  simpa using h

/-- Claim C6: the decomposition terminates on every input — the embedded
traversal never exhausts its fuel, because each recursive descent marks a
fresh id visited and only ids of the adjacency map can ever be visited —
and a graph whose only edge is the self-loop `(a, a)`, with `a` in the node
list, yields exactly one component containing only the node `a`. -/
theorem getDisconnectedComponents_terminates :
    (∀ (nodes : List Node) (links : List Link) (start : Option String),
      (getDisconnectedComponentsOpt nodes links start).isSome = true) ∧
      getDisconnectedComponents [⟨"a", "a"⟩] [⟨"a", "a"⟩] none =
        [[some ⟨"a", "a"⟩]] := by
  constructor
  · intro nodes links start
    rw [getDisconnectedComponentsOpt_eq_map]
    have h := componentsIdLoop_total (convertToEdgeMap links false) start
      (linkIds links) (fun id hid => linkIds_mem_emIds links id hid) [] []
    unfold decomposeIds
    cases hl : componentsIdLoop (convertToEdgeMap links false) start
        (linkIds links) [] [] with
    | none => rw [hl] at h; cases h
    | some out => rfl
  · rfl

/-- Claim C2's behavior at its failing input: the edge `(a, x)` has a
dangling target `x`; the single component contains the entry `none`
(JS `undefined`, from `idToNodes["x"]`) besides the node `a`, so a dangling
id does contribute an entry to the component's node list. -/
theorem getDisconnectedComponents_dangling_entry :
    getDisconnectedComponents [⟨"a", "a"⟩] [⟨"a", "x"⟩] none =
      [[some ⟨"a", "a"⟩, none]] := rfl

theorem componentsIdLoop_none_acc (em : EdgeMap) :
    ∀ (ids seen : List String) (rtn : List (List String)),
      componentsIdLoop em none ids seen rtn =
        (componentsIdLoop em none ids seen []).map (fun D => rtn ++ D) := by
  intro ids
  induction ids with
  | nil =>
    intro seen rtn
    simp [componentsIdLoop]
  | cons id rest ih =>
    intro seen rtn
    by_cases hseen : id ∈ seen
    · rw [componentsIdLoop_cons_seen hseen, componentsIdLoop_cons_seen hseen]
      exact ih seen rtn
    · cases hdfs : dfsVisit (fuelOf em) id em seen [] with
      | none =>
        rw [componentsIdLoop_cons_none hseen hdfs,
          componentsIdLoop_cons_none hseen hdfs]
        rfl
      | some r =>
        obtain ⟨seen', coll⟩ := r
        rw [componentsIdLoop_cons_new hseen hdfs,
          componentsIdLoop_cons_new hseen hdfs]
        rw [if_neg (by simp [startHit]), if_neg (by simp [startHit])]
        rw [ih seen' (rtn ++ [coll]), ih seen' ([] ++ [coll])]
        cases hres : componentsIdLoop em none rest seen' [] with
        | none => rfl
        | some D' => simp

theorem componentsIdLoop_keeps_acc (em : EdgeMap) (start : Option String) :
    ∀ (ids seen : List String) (rtn out : List (List String)),
      componentsIdLoop em start ids seen rtn = some out →
      ∀ c ∈ rtn, c ∈ out := by
  intro ids
  induction ids with
  | nil =>
    intro seen rtn out hout
    have h2 : rtn = out := by simpa [componentsIdLoop] using hout
    subst h2
    exact fun c hc => hc
  | cons id rest ih =>
    intro seen rtn out hout
    by_cases hseen : id ∈ seen
    · rw [componentsIdLoop_cons_seen hseen] at hout
      exact ih seen rtn out hout
    · cases hdfs : dfsVisit (fuelOf em) id em seen [] with
      | none =>
        rw [componentsIdLoop_cons_none hseen hdfs] at hout
        exact Option.noConfusion hout
      | some r =>
        obtain ⟨seen', coll⟩ := r
        rw [componentsIdLoop_cons_new hseen hdfs] at hout
        by_cases hstart : startHit start coll = true
        · rw [if_pos hstart] at hout
          exact fun c hc => ih seen' _ out hout c (List.mem_cons_of_mem _ hc)
        · rw [if_neg hstart] at hout
          exact fun c hc => ih seen' _ out hout c (List.mem_append_left _ hc)

theorem componentsIdLoop_comps (em : EdgeMap) (start : Option String) :
    ∀ (ids seen : List String) (rtn out : List (List String)),
      componentsIdLoop em start ids seen rtn = some out →
      ∀ c ∈ out, c ∈ rtn ∨ ∀ x ∈ c, x ∉ seen := by
  intro ids
  induction ids with
  | nil =>
    intro seen rtn out hout
    have h2 : rtn = out := by simpa [componentsIdLoop] using hout
    subst h2
    exact fun c hc => Or.inl hc
  | cons id rest ih =>
    intro seen rtn out hout
    by_cases hseen : id ∈ seen
    · rw [componentsIdLoop_cons_seen hseen] at hout
      exact ih seen rtn out hout
    · cases hdfs : dfsVisit (fuelOf em) id em seen [] with
      | none =>
        rw [componentsIdLoop_cons_none hseen hdfs] at hout
        exact Option.noConfusion hout
      | some r =>
        obtain ⟨seen', coll⟩ := r
        rw [componentsIdLoop_cons_new hseen hdfs] at hout
        have hinv := dfsVisit_inv (fuelOf em) em id seen [] seen' coll hdfs
        have hcoll_new : ∀ x ∈ coll, x ∉ seen := by
          intro x hx
          rcases (hinv.2.2 x).mp hx with hc | ⟨_, hns⟩
          · cases hc
          · exact hns
        have hstep : ∀ c ∈ out, c ∈ (if startHit start coll = true then
            coll :: rtn else rtn ++ [coll]) ∨ ∀ x ∈ c, x ∉ seen' := by
          by_cases hstart : startHit start coll = true
          · rw [if_pos hstart] at hout ⊢
            exact ih seen' _ out hout
          · rw [if_neg hstart] at hout ⊢
            exact ih seen' _ out hout
        intro c hc
        rcases hstep c hc with hmem | hdisj
        · by_cases hstart : startHit start coll = true
          · rw [if_pos hstart] at hmem
            rcases List.mem_cons.mp hmem with rfl | hmem2
            · exact Or.inr hcoll_new
            · exact Or.inl hmem2
          · rw [if_neg hstart] at hmem
            rcases List.mem_append.mp hmem with hmem2 | hmem2
            · exact Or.inl hmem2
            · rcases List.mem_singleton.mp hmem2 with rfl
              exact Or.inr hcoll_new
        · right
          intro x hx hxs
          exact hdisj x hx (hinv.1 x hxs)

theorem componentsIdLoop_covers (em : EdgeMap) (start : Option String) :
    ∀ (ids seen : List String) (rtn out : List (List String)),
      componentsIdLoop em start ids seen rtn = some out →
      ∀ id ∈ ids, id ∈ seen ∨ ∃ c ∈ out, id ∈ c := by
  intro ids
  induction ids with
  | nil =>
    intro seen rtn out hout id hid
    cases hid
  | cons id0 rest ih =>
    intro seen rtn out hout id hid
    by_cases hseen : id0 ∈ seen
    · rw [componentsIdLoop_cons_seen hseen] at hout
      rcases List.mem_cons.mp hid with rfl | hid2
      · exact Or.inl hseen
      · exact ih seen rtn out hout id hid2
    · cases hdfs : dfsVisit (fuelOf em) id0 em seen [] with
      | none =>
        rw [componentsIdLoop_cons_none hseen hdfs] at hout
        exact Option.noConfusion hout
      | some r =>
        obtain ⟨seen', coll⟩ := r
        rw [componentsIdLoop_cons_new hseen hdfs] at hout
        have hinv := dfsVisit_inv (fuelOf em) em id0 seen [] seen' coll hdfs
        have hrec : componentsIdLoop em start rest seen'
            (if startHit start coll = true then coll :: rtn else rtn ++ [coll]) =
              some out := by
          by_cases hstart : startHit start coll = true
          · rwa [if_pos hstart] at hout ⊢
          · rwa [if_neg hstart] at hout ⊢
        have hcollout : coll ∈ out := by
          apply componentsIdLoop_keeps_acc em start rest seen' _ out hrec
          by_cases hstart : startHit start coll = true
          · rw [if_pos hstart]
            exact List.mem_cons_self _ _
          · rw [if_neg hstart]
            exact List.mem_append_right _ (by simp)
        have hid0coll : id0 ∈ coll :=
          (hinv.2.2 id0).mpr (Or.inr ⟨hinv.2.1, hseen⟩)
        rcases List.mem_cons.mp hid with rfl | hid2
        · exact Or.inr ⟨coll, hcollout, hid0coll⟩
        · rcases ih seen' _ out hrec id hid2 with hs' | hcomp
          · by_cases hsn : id ∈ seen
            · exact Or.inl hsn
            · exact Or.inr ⟨coll, hcollout, (hinv.2.2 id).mpr (Or.inr ⟨hs', hsn⟩)⟩
          · exact Or.inr hcomp

theorem componentsIdLoop_start_rel (em : EdgeMap) (s : String) (hs : s ≠ "") :
    ∀ (ids seen : List String) (rtn D : List (List String)),
      componentsIdLoop em none ids seen [] = some D →
      ((∀ c ∈ D, s ∉ c) ∧
        componentsIdLoop em (some s) ids seen rtn = some (rtn ++ D)) ∨
      (∃ i : Fin D.length, s ∈ D.get i ∧
        componentsIdLoop em (some s) ids seen rtn =
          some (D.get i :: (rtn ++ D.eraseIdx i.1))) := by
  intro ids
  induction ids with
  | nil =>
    intro seen rtn D hD
    have h2 : [] = D := by simpa [componentsIdLoop] using hD
    subst h2
    left
    refine ⟨fun c hc => absurd hc (List.not_mem_nil c), ?_⟩
    simp [componentsIdLoop]
  | cons id rest ih =>
    intro seen rtn D hD
    by_cases hseen : id ∈ seen
    · rw [componentsIdLoop_cons_seen hseen] at hD
      rw [componentsIdLoop_cons_seen hseen]
      exact ih seen rtn D hD
    · cases hdfs : dfsVisit (fuelOf em) id em seen [] with
      | none =>
        rw [componentsIdLoop_cons_none hseen hdfs] at hD
        exact Option.noConfusion hD
      | some r =>
        obtain ⟨seen', coll⟩ := r
        rw [componentsIdLoop_cons_new hseen hdfs] at hD
        rw [if_neg (by simp [startHit])] at hD
        rw [componentsIdLoop_none_acc] at hD
        cases hres : componentsIdLoop em none rest seen' [] with
        | none =>
          rw [hres] at hD
          exact Option.noConfusion hD
        | some D' =>
          rw [hres] at hD
          have hDeq : D = coll :: D' := by
            have h2 := Option.some.inj hD
            simpa using h2.symm
          subst hDeq
          have hinv := dfsVisit_inv (fuelOf em) em id seen [] seen' coll hdfs
          have hcollseen' : ∀ x ∈ coll, x ∈ seen' := by
            intro x hx
            rcases (hinv.2.2 x).mp hx with hc | ⟨hc, _⟩
            · cases hc
            · exact hc
          have hdisj : ∀ c ∈ D', ∀ x ∈ c, x ∉ seen' := by
            intro c hc
            rcases componentsIdLoop_comps em none rest seen' [] D' hres c hc with
              hmem | hd
            · cases hmem
            · exact hd
          rw [componentsIdLoop_cons_new hseen hdfs]
          by_cases hmem : s ∈ coll
          · have hhit : startHit (some s) coll = true := by
              simp only [startHit, Bool.and_eq_true, decide_eq_true_eq]
              exact ⟨hs, by simpa using hmem⟩
            rw [if_pos hhit]
            have hnoD' : ∀ c ∈ D', s ∉ c :=
              fun c hc hsc => hdisj c hc s hsc (hcollseen' s hmem)
            rcases ih seen' (coll :: rtn) D' hres with ⟨_, heq⟩ | ⟨i, hsi, _⟩
            · right
              refine ⟨⟨0, by simp⟩, by simpa using hmem, ?_⟩
              rw [heq]
              simp
            · exact absurd hsi (hnoD' (D'.get i) (List.get_mem D' i.1 i.2))
          · have hhit : startHit (some s) coll = false := by
              simp only [startHit, Bool.and_eq_false_iff]
              right
              simpa using hmem
            rw [if_neg (by simp [hhit])]
            rcases ih seen' (rtn ++ [coll]) D' hres with ⟨hnos, heq⟩ | ⟨i, hsi, heq⟩
            · left
              constructor
              · intro c hc
                rcases List.mem_cons.mp hc with rfl | hc2
                · exact hmem
                · exact hnos c hc2
              · rw [heq]
                simp
            · right
              refine ⟨⟨i.1 + 1, by simp [Nat.succ_lt_succ i.2]⟩, ?_, ?_⟩
              · simpa using hsi
              · rw [heq]
                simp

/-- Claim C4 (amended): for a non-null and non-empty start node that occurs
as an edge endpoint, the returned component list is the discovery-order list
(the output of the run without a start node) with the component containing
the start node moved to the front, all other components keeping their
relative discovery order.  (JS treats an empty-string start node as absent:
`startNode && ...` is falsy, see the counterexample.) -/
theorem getDisconnectedComponents_start_component_first
    (nodes : List Node) (links : List Link) (s : String)
    (hs : s ≠ "") (hmem : s ∈ linkIds links) :
    ∃ (D : List (List String)) (i : Nat) (hi : i < D.length),
      decomposeIds links none = some D ∧
      s ∈ D.get ⟨i, hi⟩ ∧
      decomposeIds links (some s) = some (D.get ⟨i, hi⟩ :: D.eraseIdx i) ∧
      getDisconnectedComponents nodes links none =
        D.map (fun c => c.map (nodeFor nodes)) ∧
      getDisconnectedComponents nodes links (some s) =
        (D.get ⟨i, hi⟩ :: D.eraseIdx i).map (fun c => c.map (nodeFor nodes)) := by
  have hids : ∀ id ∈ linkIds links, id ∈ emIds (convertToEdgeMap links false) :=
    fun id hid => linkIds_mem_emIds links id hid
  have htot := componentsIdLoop_total (convertToEdgeMap links false) none
    (linkIds links) hids [] []
  cases hD : decomposeIds links none with
  | none =>
    unfold decomposeIds at hD
    rw [hD] at htot
    cases htot
  | some D =>
    have hDloop : componentsIdLoop (convertToEdgeMap links false) none
        (linkIds links) [] [] = some D := hD
    rcases componentsIdLoop_start_rel (convertToEdgeMap links false) s hs
        (linkIds links) [] [] D hDloop with ⟨hnos, _⟩ | ⟨i, hsi, heq⟩
    · exfalso
      rcases componentsIdLoop_covers (convertToEdgeMap links false) none
          (linkIds links) [] [] D hDloop s hmem with hc | ⟨c, hc, hsc⟩
      · cases hc
      · exact hnos c hc hsc
    · refine ⟨D, i.1, i.2, rfl, hsi, ?_, ?_, ?_⟩
      · show componentsIdLoop (convertToEdgeMap links false) (some s)
          (linkIds links) [] [] = _
        rw [heq]
        simp
      · rw [getDisconnectedComponents, getDisconnectedComponentsOpt_eq_map, hD]
        rfl
      · rw [getDisconnectedComponents, getDisconnectedComponentsOpt_eq_map]
        have hds : decomposeIds links (some s) =
            some (D.get ⟨i.1, i.2⟩ :: D.eraseIdx i.1) := by
          show componentsIdLoop (convertToEdgeMap links false) (some s)
            (linkIds links) [] [] = _
          rw [heq]
          simp
        rw [hds]
        rfl

/-- Witness for claim C4's theorem at the spec's own example: nodes
`A, B, C, D`, undirected edges `A–B` and `C–D`, start node `D`: the
component of `D` is returned first. -/
theorem getDisconnectedComponents_start_component_first_witness :
    (("D" : String) ≠ "" ∧ "D" ∈ linkIds [⟨"A", "B"⟩, ⟨"C", "D"⟩]) ∧
      ∃ (D : List (List String)) (i : Nat) (hi : i < D.length),
        decomposeIds [⟨"A", "B"⟩, ⟨"C", "D"⟩] none = some D ∧
        "D" ∈ D.get ⟨i, hi⟩ ∧
        decomposeIds [⟨"A", "B"⟩, ⟨"C", "D"⟩] (some "D") =
          some (D.get ⟨i, hi⟩ :: D.eraseIdx i) ∧
        getDisconnectedComponents
            [⟨"A", "A"⟩, ⟨"B", "B"⟩, ⟨"C", "C"⟩, ⟨"D", "D"⟩]
            [⟨"A", "B"⟩, ⟨"C", "D"⟩] none =
          D.map (fun c => c.map
            (nodeFor [⟨"A", "A"⟩, ⟨"B", "B"⟩, ⟨"C", "C"⟩, ⟨"D", "D"⟩])) ∧
        getDisconnectedComponents
            [⟨"A", "A"⟩, ⟨"B", "B"⟩, ⟨"C", "C"⟩, ⟨"D", "D"⟩]
            [⟨"A", "B"⟩, ⟨"C", "D"⟩] (some "D") =
          (D.get ⟨i, hi⟩ :: D.eraseIdx i).map (fun c => c.map
            (nodeFor [⟨"A", "A"⟩, ⟨"B", "B"⟩, ⟨"C", "C"⟩, ⟨"D", "D"⟩])) :=
  ⟨⟨by decide, by decide⟩,
    getDisconnectedComponents_start_component_first
      [⟨"A", "A"⟩, ⟨"B", "B"⟩, ⟨"C", "C"⟩, ⟨"D", "D"⟩]
      [⟨"A", "B"⟩, ⟨"C", "D"⟩] "D" (by decide) (by decide)⟩

/-- Claim C4, counterexample to the literal statement: the empty string is a
non-null start node whose component exists (the self-loop on `""`), yet its
component is not moved to the front, because `startNode && ...` is falsy for
the empty string in JS. -/
theorem getDisconnectedComponents_empty_start_counterexample :
    ("" : String) ∈ linkIds [⟨"a", "b"⟩, ⟨"", ""⟩] ∧
      getDisconnectedComponents [⟨"a", "a"⟩, ⟨"b", "b"⟩, ⟨"", "e"⟩]
          [⟨"a", "b"⟩, ⟨"", ""⟩] (some "") =
        [[some ⟨"a", "a"⟩, some ⟨"b", "b"⟩], [some ⟨"", "e"⟩]] := by
  constructor
  · decide
  · rfl

end GraphViz
